import Mathlib

/-!
# Verification of the pod-table parsing and service-resolution core

This file is a shallow embedding of the function `getServicesMap` from
`src/extension.ts` (lines 237-288) of the `k8s-service-loader-vscode`
extension, together with the derived service-name listing on line 96
(`Array.from(servicesMap.keys()).sort()`) and the lookup on line 130
(`servicesMap.get(selectedService)?.[environment]`).

Modelling conventions:
* JavaScript strings are Lean `String`s; the character-level work is done on
  `List Char` (a `String` is its list of characters).
* JavaScript `undefined`/`null` values that can flow through the code are
  modelled with `Option`; calling a method on `undefined` is the error
  `JsErr.typeError`.
* The function can throw; it is embedded as `Except JsErr _`.
* `String.prototype.split(/\s+/)` is modelled by `jsSplitWs`: it splits on
  maximal runs of whitespace and, as in JavaScript, produces an empty leading
  (trailing) token when the string starts (ends) with whitespace, and `[""]`
  on the empty string.
* The dynamic namespace-strip regex `new RegExp("^" + ns + "-", "g")` is
  modelled by `replaceNsRegex`; see its documentation for the modelled
  fragment of JavaScript regular-expression behaviour.
-/

namespace K8s

/-- The runtime failures the embedded JavaScript can produce.
`typeError` models calling a method on `undefined` (e.g. line 253,
`nameColumn.startsWith` when `nameColumn` is `undefined`);
`regexSyntaxError` models `new RegExp` (line 268) throwing `SyntaxError` on a
syntactically invalid pattern; `regexUnmodelled` is a model-boundary marker
for namespace strings whose interpolated pattern falls outside the regex
fragment modelled here (no theorem below evaluates the embedding at such a
namespace). -/
inductive JsErr where
  | typeError
  | regexSyntaxError
  | regexUnmodelled
  deriving DecidableEq, Repr

/-- The whitespace class used by `trim` and `\s` (ASCII fragment). -/
def isWs (c : Char) : Bool := c.isWhitespace

/-- Model of `String.prototype.trim` (line 239 `podsData.trim()`). -/
def jsTrim (l : List Char) : List Char :=
  ((l.dropWhile isWs).reverse.dropWhile isWs).reverse

/-- Helper for `splitOnChar`: accumulates the current (reversed) field. -/
def splitOnCharAux (c : Char) : List Char → List Char → List (List Char)
  | [], acc => [acc.reverse]
  | d :: ds, acc =>
    if d = c then acc.reverse :: splitOnCharAux c ds []
    else splitOnCharAux c ds (d :: acc)

/-- Model of `String.prototype.split` with a single-character separator
(line 239 `split("\n")` and line 274 `split("-")`). -/
def splitOnChar (c : Char) (l : List Char) : List (List Char) :=
  splitOnCharAux c l []

/-- Helper for `jsSplitWs`: the maximal non-whitespace runs of a string. -/
def wsWordsAux : List Char → List Char → List (List Char)
  | [], cur => if cur = [] then [] else [cur.reverse]
  | c :: cs, cur =>
    if isWs c then
      if cur = [] then wsWordsAux cs [] else cur.reverse :: wsWordsAux cs []
    else wsWordsAux cs (c :: cur)

/-- Whether the last character of a string is whitespace. -/
def lastIsWs (s : List Char) : Bool :=
  match s.getLast? with
  | none => false
  | some c => isWs c

/-- Model of `String.prototype.split(/\s+/)` (lines 242 and 247): split on
maximal whitespace runs; a leading (trailing) whitespace run contributes an
empty leading (trailing) token, and the empty string yields `[""]`. -/
def jsSplitWs : List Char → List (List Char)
  | [] => [[]]
  | c :: cs =>
    (if isWs c then [[]] else []) ++ wsWordsAux (c :: cs) []
      ++ (if lastIsWs (c :: cs) then [[]] else [])

/-- Model of `columns[i]` where `i` is the result of `indexOf` on the header:
`i = none` models index `-1` (header token absent), and an in-range check
models JavaScript's `undefined` on out-of-range access. -/
def jsIndex {α : Type} (xs : List α) (i : Option Nat) : Option α :=
  i.bind (fun n => xs[n]?)

/-- The value stored per service and environment:
`{ id: serviceId, namespace: namespaceColumn }` (lines 281-284).
`ns` is an `Option` because `namespaceColumn` can be `undefined` (no
`NAMESPACE` header and no fixed namespace). -/
structure ServiceRef where
  id : String
  ns : Option String
  deriving DecidableEq, Repr

/-- The per-service environment object, a JavaScript object used as a
dictionary keyed by `"dev"`/`"qa"`/`"stg"`. -/
abbrev EnvB := List (String × ServiceRef)

/-- The `servicesMap` (line 238): a JavaScript `Map` from service name to its
environment object, in insertion order with unique keys. -/
abbrev Catalog := List (String × EnvB)

/-- Association-list lookup: `Map.prototype.get` / property read. -/
def alGet {α : Type} : List (String × α) → String → Option α
  | [], _ => none
  | (k', v) :: rest, k => if k' = k then some v else alGet rest k

/-- `Map.prototype.has` (line 278). -/
def alHas {α : Type} (m : List (String × α)) (k : String) : Bool :=
  (alGet m k).isSome

/-- `Map.prototype.set` / property write: updates an existing key in place,
otherwise appends (JavaScript `Map`s and objects preserve insertion order). -/
def alSet {α : Type} : List (String × α) → String → α → List (String × α)
  | [], k, v => [(k, v)]
  | (k', v') :: rest, k, v =>
    if k' = k then (k, v) :: rest else (k', v') :: alSet rest k v

/-- The in-place update `servicesMap.get(serviceName)[envPrefix] = ...`
(lines 281-284) on a map already holding a binding object for the key. -/
def catSetIn (m1 : Catalog) (sn env : String) (ref : ServiceRef) : Catalog :=
  alSet m1 sn (alSet ((alGet m1 sn).getD []) env ref)

/-- Lines 278-284:
`if (!servicesMap.has(serviceName)) servicesMap.set(serviceName, {});`
`servicesMap.get(serviceName)[envPrefix] = { id, namespace }`. -/
def catInsert (m : Catalog) (sn env : String) (ref : ServiceRef) : Catalog :=
  catSetIn (if alHas m sn then m else alSet m sn []) sn env ref

/-- Line 130: `servicesMap.get(selectedService)?.[environment]`. -/
def catLookup (m : Catalog) (sn env : String) : Option ServiceRef :=
  (alGet m sn).bind (fun b => alGet b env)

/-- Lines 252-261: the environment classification of a raw instance name
(`startsWith "dev-"`, `"qa-"`, `"stg-"`, in this order; otherwise the row is
skipped, signalled here by `none`). -/
def envTagOf (name : List Char) : Option String :=
  if ("dev-".toList).isPrefixOf name then some "dev"
  else if ("qa-".toList).isPrefixOf name then some "qa"
  else if ("stg-".toList).isPrefixOf name then some "stg"
  else none

/-- Line 263: `nameColumn.replace(/^(dev-|qa-|stg-)/, "")` — removes the one
matching environment alternative at the start (the three alternatives are
mutually exclusive as prefixes). -/
def stripEnv (name : List Char) : List Char :=
  if ("dev-".toList).isPrefixOf name then name.drop 4
  else if ("qa-".toList).isPrefixOf name then name.drop 3
  else if ("stg-".toList).isPrefixOf name then name.drop 4
  else name

/-- The characters that carry special meaning in a JavaScript regular
expression (outside character classes). -/
def regexMeta (c : Char) : Bool :=
  c = '\\' || c = '^' || c = '$' || c = '.' || c = '|' || c = '?' || c = '*' ||
  c = '+' || c = '(' || c = ')' || c = '[' || c = ']' ||
  c = Char.ofNat 123 || c = Char.ofNat 125

/-- A string none of whose characters has regex metacharacter meaning: when
interpolated into a pattern it matches itself literally. -/
def regexLiteralStr (s : List Char) : Bool := s.all (fun c => !regexMeta c)

/-- Running parenthesis balance check: a pattern built only of literal
characters, `.`, and parentheses is a syntactically invalid regex exactly
when its parentheses are unbalanced (`new RegExp` throws `SyntaxError`:
"Unterminated group" / "Unmatched ')'"). -/
def parenBalanced : List Char → Int → Bool
  | [], n => n = 0
  | c :: cs, n =>
    if c = '(' then parenBalanced cs (n + 1)
    else if c = ')' then (0 < n) && parenBalanced cs (n - 1)
    else parenBalanced cs n

/-- One element of a compiled pattern: a literal character or `.`
(which matches any character other than a line terminator). -/
inductive PatElem where
  | lit (c : Char)
  | dot
  deriving DecidableEq, Repr

/-- Whether a pattern element matches one character.  JavaScript `.` matches
everything except the four line terminators. -/
def elemMatches : PatElem → Char → Bool
  | .lit c, d => c = d
  | .dot, d => !(d = '\n' || d = '\r' || d = '\u2028' || d = '\u2029')

/-- Match a quantifier-free pattern against the start of a string, returning
the remainder after the match.  Every element consumes exactly one character,
so matching is deterministic. -/
def matchLead : List PatElem → List Char → Option (List Char)
  | [], rest => some rest
  | _ :: _, [] => none
  | e :: es, c :: cs => if elemMatches e c then matchLead es cs else none

/-- The compiled pattern body for the namespace string: `.` becomes the
any-character element, every other (literal) character matches itself. -/
def nsPatElems (ns : List Char) : List PatElem :=
  ns.map (fun c => if c = '.' then PatElem.dot else PatElem.lit c)

/-- Model of lines 267-270:
`modifiedName.replace(new RegExp("^" + namespaceColumn + "-", "g"), "")`.

The interpolated pattern is `"^" ++ ns ++ "-"`.  Modelled fragment of
JavaScript regex behaviour:
* If `ns` contains `\`, `[` or `]` the pattern's meaning (escapes, character
  classes) is outside the fragment: `regexUnmodelled`.
* Otherwise, if the parentheses of `ns` are unbalanced, `new RegExp` throws
  `SyntaxError` — e.g. `ns = "("` gives the invalid pattern `^(-`
  ("Unterminated group").  Modelled by `regexSyntaxError`.
* Otherwise, if `ns` still contains any metacharacter other than `.`
  (balanced groups, alternation, quantifiers, anchors), the pattern is valid
  but outside the fragment: `regexUnmodelled`.
* Otherwise `ns` consists of literal characters and `.`, and the pattern
  `^ns-` matches, at the start of the subject only, one character per pattern
  element.  The `g` flag is inert: after the first match the `^` anchor (no
  `m` flag) cannot match at a position greater than 0, so at most one leading
  occurrence is removed, exactly as modelled here.

No theorem below evaluates this definition at a `regexUnmodelled` namespace:
every statement either restricts the namespace to `regexLiteralStr` (or
literal-plus-dot) strings or never reaches the namespace strip. -/
def replaceNsRegex (ns name : List Char) : Except JsErr (List Char) :=
  if ns.any (fun c => c = '\\' || c = '[' || c = ']') then .error .regexUnmodelled
  else if !(parenBalanced ns 0) then .error .regexSyntaxError
  else if ns.any (fun c => c = '(' || c = ')') then .error .regexUnmodelled
  else if ns.any (fun c => regexMeta c && !(c = '.')) then .error .regexUnmodelled
  else
    match matchLead (nsPatElems ns ++ [PatElem.lit '-']) name with
    | some rest => .ok rest
    | none => .ok name

/-- Lines 266-271: the namespace strip runs only when `namespaceColumn` is
truthy (`undefined` and `""` are falsy and skip the strip). -/
def doNsStrip : Option (List Char) → List Char → Except JsErr (List Char)
  | none, s => .ok s
  | some v, s => if v = [] then .ok s else replaceNsRegex v s

/-- Lines 251-285, the per-row resolution given the resolved namespace cell
and the raw name cell: environment classification, environment strip,
namespace strip, `split("-")`, and the `parts.length > 2` guard.  Returns
`none` when the row is silently skipped, otherwise the service name, the
environment tag, and the stored reference. -/
def resolveCell (nsCol : Option (List Char)) (nameCol : List Char) :
    Except JsErr (Option (String × String × ServiceRef)) :=
  match envTagOf nameCol with
  | none => .ok none
  | some env =>
    match doNsStrip nsCol (stripEnv nameCol) with
    | .error e => .error e
    | .ok m2 =>
      let parts := splitOnChar '-' m2
      if 2 < parts.length then
        .ok (some
          (String.mk (List.intercalate ['-'] (parts.take (parts.length - 2))),
           env,
           ⟨String.mk (List.intercalate ['-'] (parts.drop (parts.length - 2))),
            nsCol.map String.mk⟩))
      else .ok none

/-- Lines 247-249 plus the row resolution: split the line on whitespace,
resolve the namespace cell (`namespace ?? columns[namespaceIndex]`) and the
name cell (`columns[nameIndex]`); reading a property of an `undefined` name
cell (line 253) throws a `TypeError`. -/
def rowResolution (fixedNs : Option (List Char)) (nsIdx nameIdx : Option Nat)
    (line : List Char) : Except JsErr (Option (String × String × ServiceRef)) :=
  let columns := jsSplitWs line
  match jsIndex columns nameIdx with
  | none => .error .typeError
  | some nameCol => resolveCell (fixedNs <|> jsIndex columns nsIdx) nameCol

/-- One iteration of the loop body (lines 246-286) on the accumulated map. -/
def processLine (fixedNs : Option (List Char)) (nsIdx nameIdx : Option Nat)
    (m : Catalog) (line : List Char) : Except JsErr Catalog :=
  match rowResolution fixedNs nsIdx nameIdx line with
  | .error e => .error e
  | .ok none => .ok m
  | .ok (some (sn, env, ref)) => .ok (catInsert m sn env ref)

/-- The loop over the data lines (`for (let i = 1; ...)`, line 246),
threading the map and propagating a thrown error. -/
def processRows (fixedNs : Option (List Char)) (nsIdx nameIdx : Option Nat)
    (m : Catalog) : List (List Char) → Except JsErr Catalog
  | [] => .ok m
  | l :: ls =>
    match processLine fixedNs nsIdx nameIdx m l with
    | .error e => .error e
    | .ok m2 => processRows fixedNs nsIdx nameIdx m2 ls

/-- Lines 241-287 on the already-split lines: the first line is the header
(`headers.indexOf("NAMESPACE")`, `headers.indexOf("NAME")`, lines 242-244),
the rest are data lines.  An empty line list would make `lines[0]`
`undefined` and `.split` on it throw (unreachable from `getServicesMap`,
whose line split always returns at least one line). -/
def processLines (fixedNs : Option (List Char)) :
    List (List Char) → Except JsErr Catalog
  | [] => .error .typeError
  | header :: dataLines =>
    let headers := jsSplitWs header
    processRows fixedNs
      (headers.findIdx? (fun t => t == "NAMESPACE".toList))
      (headers.findIdx? (fun t => t == "NAME".toList))
      [] dataLines

/-- The embedded `getServicesMap(podsData, namespace)` (lines 237-288). -/
def getServicesMap (podsData : String) (fixedNs : Option String) :
    Except JsErr Catalog :=
  processLines (fixedNs.map String.toList)
    (splitOnChar '\n' (jsTrim podsData.toList))

/-- Line 96: `Array.from(servicesMap.keys()).sort()` — the service names in
insertion order, sorted by the default comparator (lexicographic string
order; insertion sort is used as the model of `Array.prototype.sort`). -/
def listServiceNames (m : Catalog) : List String :=
  List.insertionSort (fun a b => a ≤ b) (m.map Prod.fst)

/-- Modelled from the spec (§4.2 step 3), for comparison with the code's
regex-based strip: "if `stripped` begins with `"<namespace>-"` ... remove
that leading segment.  Only the first occurrence at the very start is
removed". -/
def stripLeadOnce (ns name : List Char) : List Char :=
  if (ns ++ ['-']).isPrefixOf name then name.drop (ns.length + 1) else name

/-! ## Association-list laws -/

theorem alGet_alSet_self {α : Type} (m : List (String × α)) (k : String) (v : α) :
    alGet (alSet m k v) k = some v := by
  induction m with
  | nil => simp [alSet, alGet]
  | cons p rest ih =>
    obtain ⟨k', v'⟩ := p
    by_cases h : k' = k <;> simp [alSet, alGet, h, ih]

theorem alSet_alSet_same {α : Type} (m : List (String × α)) (k : String) (v : α) :
    alSet (alSet m k v) k v = alSet m k v := by
  induction m with
  | nil => simp [alSet]
  | cons p rest ih =>
    obtain ⟨k', v'⟩ := p
    by_cases h : k' = k <;> simp [alSet, h, ih]

theorem alGet_eq_none_iff {α : Type} (m : List (String × α)) (k : String) :
    alGet m k = none ↔ k ∉ m.map Prod.fst := by
  induction m with
  | nil => simp [alGet]
  | cons p rest ih =>
    obtain ⟨k', v'⟩ := p
    by_cases h : k' = k
    · subst h; simp [alGet]
    · have h' : ¬(k = k') := fun heq => h heq.symm
      simp [alGet, h, h', ih]

theorem alGet_mem {α : Type} {m : List (String × α)} {k : String} {v : α}
    (h : alGet m k = some v) : (k, v) ∈ m := by
  induction m with
  | nil => simp [alGet] at h
  | cons p rest ih =>
    obtain ⟨k', v'⟩ := p
    by_cases hk : k' = k
    · simp [alGet, hk] at h
      simp [hk, h]
    · simp [alGet, hk] at h
      exact List.mem_cons_of_mem _ (ih h)

theorem keys_alSet_some {α : Type} {m : List (String × α)} {k : String} {w : α}
    (v : α) (h : alGet m k = some w) :
    (alSet m k v).map Prod.fst = m.map Prod.fst := by
  induction m with
  | nil => simp [alGet] at h
  | cons p rest ih =>
    obtain ⟨k', v'⟩ := p
    by_cases hk : k' = k
    · simp [alSet, hk]
    · simp [alGet, hk] at h
      simp [alSet, hk, ih h]

theorem keys_alSet_none {α : Type} {m : List (String × α)} {k : String}
    (v : α) (h : alGet m k = none) :
    (alSet m k v).map Prod.fst = m.map Prod.fst ++ [k] := by
  induction m with
  | nil => simp [alSet]
  | cons p rest ih =>
    obtain ⟨k', v'⟩ := p
    by_cases hk : k' = k
    · simp [alGet, hk] at h
    · simp [alGet, hk] at h
      simp [alSet, hk, ih h]

theorem nodup_keys_alSet {α : Type} {m : List (String × α)} {k : String} (v : α)
    (h : (m.map Prod.fst).Nodup) : ((alSet m k v).map Prod.fst).Nodup := by
  cases hg : alGet m k with
  | none =>
    rw [keys_alSet_none v hg]
    have hk : k ∉ m.map Prod.fst := (alGet_eq_none_iff m k).mp hg
    simp [List.nodup_append, h, hk]
  | some w => rw [keys_alSet_some v hg]; exact h

theorem mem_alSet {α : Type} {m : List (String × α)} {k : String} {v : α}
    {p : String × α} (h : p ∈ alSet m k v) : p = (k, v) ∨ p ∈ m := by
  induction m with
  | nil => simp [alSet] at h; simp [h]
  | cons q rest ih =>
    obtain ⟨k', v'⟩ := q
    by_cases hk : k' = k
    · simp [alSet, hk] at h
      rcases h with h | h
      · exact Or.inl (by simp [h])
      · exact Or.inr (List.mem_cons_of_mem _ h)
    · simp [alSet, hk] at h
      rcases h with h | h
      · exact Or.inr (by simp [h])
      · rcases ih h with h' | h'
        · exact Or.inl h'
        · exact Or.inr (List.mem_cons_of_mem _ h')

/-! ## Catalog-shape invariant: unique service keys, unique environment keys -/

/-- The structural invariant the JavaScript `Map`/object representation
guarantees: service keys are unique, and within each service the environment
keys are unique. -/
def CatInv (m : Catalog) : Prop :=
  (m.map Prod.fst).Nodup ∧ ∀ p ∈ m, ((p.2).map Prod.fst).Nodup

theorem catInsert_inv {m : Catalog} (sn env : String) (ref : ServiceRef)
    (h : CatInv m) : CatInv (catInsert m sn env ref) := by
  by_cases hh : alHas m sn = true
  · rw [catInsert, if_pos hh]
    obtain ⟨b0, hb0⟩ := Option.isSome_iff_exists.mp hh
    constructor
    · rw [catSetIn, keys_alSet_some _ hb0]
      exact h.1
    · intro p hp
      rw [catSetIn] at hp
      rcases mem_alSet hp with h' | h'
      · rw [h']
        show ((alSet ((alGet m sn).getD []) env ref).map Prod.fst).Nodup
        rw [hb0]
        exact nodup_keys_alSet _ (h.2 (sn, b0) (alGet_mem hb0))
      · exact h.2 p h'
  · rw [catInsert, if_neg hh]
    have hnone : alGet m sn = none := by
      cases hg : alGet m sn with
      | none => rfl
      | some w => exact absurd (by simp [alHas, hg]) hh
    have hget : alGet (alSet m sn ([] : EnvB)) sn = some [] := alGet_alSet_self _ _ _
    constructor
    · rw [catSetIn, keys_alSet_some _ hget]
      exact nodup_keys_alSet _ h.1
    · intro p hp
      rw [catSetIn] at hp
      rcases mem_alSet hp with h' | h'
      · rw [h']
        show ((alSet ((alGet (alSet m sn []) sn).getD []) env ref).map Prod.fst).Nodup
        rw [hget]
        simp [alSet]
      · rcases mem_alSet h' with h'' | h''
        · rw [h'']; simp
        · exact h.2 p h''

theorem catInsert_idem (m : Catalog) (sn env : String) (ref : ServiceRef) :
    catInsert (catInsert m sn env ref) sn env ref = catInsert m sn env ref := by
  have e1 : catInsert m sn env ref
      = alSet (if alHas m sn then m else alSet m sn []) sn
          (alSet ((alGet (if alHas m sn then m else alSet m sn []) sn).getD []) env ref) := rfl
  have hget : alGet (catInsert m sn env ref) sn
      = some (alSet ((alGet (if alHas m sn then m else alSet m sn []) sn).getD []) env ref) := by
    rw [e1]; exact alGet_alSet_self _ _ _
  have hhas : alHas (catInsert m sn env ref) sn = true := by simp [alHas, hget]
  have e2 : catInsert (catInsert m sn env ref) sn env ref
      = alSet (catInsert m sn env ref) sn
          (alSet ((alGet (catInsert m sn env ref) sn).getD []) env ref) := by
    rw [catInsert, catSetIn, if_pos hhas]
  rw [e2, hget]
  simp only [Option.getD_some]
  rw [alSet_alSet_same]
  conv_lhs => rw [e1]
  rw [alSet_alSet_same, ← e1]

theorem catLookup_catInsert (m : Catalog) (sn env : String) (ref : ServiceRef) :
    catLookup (catInsert m sn env ref) sn env = some ref := by
  rw [catInsert, catSetIn, catLookup, alGet_alSet_self]
  simp [alGet_alSet_self]

/-! ## The invariant holds for every catalog the parser returns -/

theorem processLine_inv {f : Option (List Char)} {ni nj : Option Nat}
    {m m2 : Catalog} {l : List Char} (h : CatInv m)
    (hp : processLine f ni nj m l = .ok m2) : CatInv m2 := by
  rw [processLine] at hp
  cases hr : rowResolution f ni nj l with
  | error e => rw [hr] at hp; cases hp
  | ok o =>
    rw [hr] at hp
    cases o with
    | none => cases hp; exact h
    | some t =>
      obtain ⟨sn, env, ref⟩ := t
      cases hp
      exact catInsert_inv sn env ref h

theorem processRows_inv {f : Option (List Char)} {ni nj : Option Nat} :
    ∀ {ls : List (List Char)} {m m2 : Catalog}, CatInv m →
      processRows f ni nj m ls = .ok m2 → CatInv m2 := by
  intro ls
  induction ls with
  | nil => intro m m2 h hp; rw [processRows] at hp; cases hp; exact h
  | cons l rest ih =>
    intro m m2 h hp
    rw [processRows] at hp
    cases hl : processLine f ni nj m l with
    | error e => rw [hl] at hp; cases hp
    | ok mm => rw [hl] at hp; exact ih (processLine_inv h hl) hp

theorem getServicesMap_inv {s : String} {fixedNs : Option String} {m : Catalog}
    (h : getServicesMap s fixedNs = .ok m) : CatInv m := by
  rw [getServicesMap] at h
  cases hl : splitOnChar '\n' (jsTrim s.toList) with
  | nil => rw [hl, processLines] at h; cases h
  | cons hd tl =>
    rw [hl, processLines] at h
    exact processRows_inv ⟨by simp, by simp⟩ h

/-! ## The regex fragment on metacharacter-free namespaces -/

theorem matchLead_lits (xs : List Char) : ∀ name : List Char,
    matchLead (xs.map PatElem.lit) name =
      if xs.isPrefixOf name then some (name.drop xs.length) else none := by
  induction xs with
  | nil => intro name; simp [matchLead, List.isPrefixOf]
  | cons x xs ih =>
    intro name
    cases name with
    | nil => simp [matchLead, List.isPrefixOf]
    | cons c cs =>
      by_cases h : x = c
      · subst h
        simp [matchLead, List.isPrefixOf, elemMatches, ih cs]
      · simp [matchLead, List.isPrefixOf, elemMatches, h]

theorem parenBalanced_no_paren {ns : List Char}
    (h : ∀ c ∈ ns, c ≠ '(' ∧ c ≠ ')') : parenBalanced ns 0 = true := by
  induction ns with
  | nil => rfl
  | cons c cs ih =>
    have hc := h c (List.mem_cons_self c cs)
    rw [parenBalanced, if_neg hc.1, if_neg hc.2]
    exact ih (fun d hd => h d (List.mem_cons_of_mem c hd))

theorem replaceNsRegex_literal (ns name : List Char)
    (h : regexLiteralStr ns = true) :
    replaceNsRegex ns name = .ok (stripLeadOnce ns name) := by
  have hmeta : ∀ c ∈ ns, regexMeta c = false := by
    intro c hc
    have := List.all_eq_true.mp h c hc
    simpa using this
  have hne : ∀ c ∈ ns, ∀ d : Char, regexMeta d = true → c ≠ d := by
    intro c hc d hd heq
    subst heq
    exact absurd hd (by simp [hmeta c hc])
  have g1 : ns.any (fun c => c = '\\' || c = '[' || c = ']') = false := by
    rw [List.any_eq_false]
    intro c hc
    simp [hne c hc '\\' (by decide), hne c hc '[' (by decide),
      hne c hc ']' (by decide)]
  have g2 : parenBalanced ns 0 = true :=
    parenBalanced_no_paren (fun c hc =>
      ⟨hne c hc '(' (by decide), hne c hc ')' (by decide)⟩)
  have g3 : ns.any (fun c => c = '(' || c = ')') = false := by
    rw [List.any_eq_false]
    intro c hc
    simp [hne c hc '(' (by decide), hne c hc ')' (by decide)]
  have g4 : ns.any (fun c => regexMeta c && !(c = '.')) = false := by
    rw [List.any_eq_false]
    intro c hc
    simp [hmeta c hc]
  have hdot : ∀ c ∈ ns, c ≠ '.' := fun c hc => hne c hc '.' (by decide)
  have helems : nsPatElems ns = ns.map PatElem.lit := by
    rw [nsPatElems]
    exact List.map_congr_left (fun c hc => by rw [if_neg (hdot c hc)])
  rw [replaceNsRegex, g1, g2, g3, g4]
  simp only [Bool.false_eq_true, if_false, Bool.not_true, if_true]
  rw [helems, show (ns.map PatElem.lit) ++ [PatElem.lit '-']
        = (ns ++ ['-']).map PatElem.lit by simp,
      matchLead_lits (ns ++ ['-']) name, stripLeadOnce]
  by_cases hp : (ns ++ ['-']).isPrefixOf name
  · rw [if_pos hp, if_pos hp]
    simp
  · rw [if_neg hp, if_neg hp]

/-! ## Whitespace-splitting lemmas -/

theorem wsWordsAux_all_nonWs : ∀ (l cur : List Char), l ≠ [] →
    (∀ c ∈ l, isWs c = false) → wsWordsAux l cur = [cur.reverse ++ l] := by
  intro l
  induction l with
  | nil => intro cur h; exact absurd rfl h
  | cons c cs ih =>
    intro cur _ hws
    rw [wsWordsAux, if_neg (by simp [hws c (List.mem_cons_self c cs)])]
    cases hcs : cs with
    | nil =>
      rw [wsWordsAux]
      simp
    | cons d ds =>
      rw [← hcs, ih (c :: cur) (by simp [hcs])
        (fun d hd => hws d (List.mem_cons_of_mem c hd))]
      simp

theorem mem_of_getLast?_eq {l : List Char} {c : Char}
    (h : l.getLast? = some c) : c ∈ l := by
  obtain ⟨hne, heq⟩ := List.mem_getLast?_eq_getLast (l := l) (x := c) h
  rw [heq]
  exact List.getLast_mem hne

theorem lastIsWs_false {l : List Char} (h : ∀ c ∈ l, isWs c = false) :
    lastIsWs l = false := by
  rw [lastIsWs]
  cases hg : l.getLast? with
  | none => rfl
  | some c => exact h c (mem_of_getLast?_eq hg)

theorem jsSplitWs_single {l : List Char} (hne : l ≠ [])
    (h : ∀ c ∈ l, isWs c = false) : jsSplitWs l = [l] := by
  cases l with
  | nil => exact absurd rfl hne
  | cons c cs =>
    rw [jsSplitWs, if_neg (by simp [h c (List.mem_cons_self c cs)]),
      lastIsWs_false h]
    simp [wsWordsAux_all_nonWs (c :: cs) [] (by simp) h]

theorem wsWordsAux_append_space : ∀ (a cur b : List Char),
    (∀ c ∈ a, isWs c = false) → cur.reverse ++ a ≠ [] →
    wsWordsAux (a ++ ' ' :: b) cur = (cur.reverse ++ a) :: wsWordsAux b [] := by
  intro a
  induction a with
  | nil =>
    intro cur b _ hne
    rw [List.nil_append, wsWordsAux, if_pos (by rfl)]
    have hcur : cur ≠ [] := by simpa using hne
    rw [if_neg hcur]
    simp
  | cons x xs ih =>
    intro cur b hws _
    rw [List.cons_append, wsWordsAux,
      if_neg (by simp [hws x (List.mem_cons_self x xs)])]
    rw [ih (x :: cur) b (fun d hd => hws d (List.mem_cons_of_mem x hd))
      (by simp)]
    simp

theorem jsSplitWs_pair {a b : List Char} (ha : a ≠ []) (hb : b ≠ [])
    (haw : ∀ c ∈ a, isWs c = false) (hbw : ∀ c ∈ b, isWs c = false) :
    jsSplitWs (a ++ ' ' :: b) = [a, b] := by
  cases a with
  | nil => exact absurd rfl ha
  | cons x xs =>
    rw [List.cons_append, jsSplitWs,
      if_neg (by simp [haw x (List.mem_cons_self x xs)])]
    have hlast : lastIsWs (x :: (xs ++ ' ' :: b)) = false := by
      rw [lastIsWs]
      cases hg : (x :: (xs ++ ' ' :: b)).getLast? with
      | none => rfl
      | some c =>
        have hc : c ∈ b := by
          have h1 : (x :: (xs ++ ' ' :: b)).getLast? = b.getLast? := by
            rw [show x :: (xs ++ ' ' :: b) = (x :: xs ++ [' ']) ++ b by simp]
            exact List.getLast?_append_of_ne_nil _ hb
          exact mem_of_getLast?_eq (h1 ▸ hg)
        exact hbw c hc
    rw [hlast]
    rw [show x :: (xs ++ ' ' :: b) = (x :: xs) ++ ' ' :: b from by simp]
    rw [wsWordsAux_append_space (x :: xs) [] b haw (by simp)]
    rw [wsWordsAux_all_nonWs b [] hb hbw]
    simp

/-! ## Line-splitting lemma -/

theorem splitOnCharAux_no_sep (c : Char) : ∀ (ds acc : List Char), c ∉ ds →
    splitOnCharAux c ds acc = [acc.reverse ++ ds] := by
  intro ds
  induction ds with
  | nil => intro acc _; simp [splitOnCharAux]
  | cons d ds' ih =>
    intro acc h
    rw [splitOnCharAux, if_neg (by rintro rfl; exact h (List.mem_cons_self d ds'))]
    rw [ih (d :: acc) (fun hm => h (List.mem_cons_of_mem d hm))]
    simp

theorem splitOnChar_single {c : Char} {l : List Char} (h : c ∉ l) :
    splitOnChar c l = [l] := by
  rw [splitOnChar, splitOnCharAux_no_sep c l [] h]
  rfl

/-! ## Sortedness helper -/

theorem sorted_lt_of_le_nodup {l : List String}
    (h1 : l.Sorted (fun a b => a ≤ b)) (h2 : l.Nodup) :
    l.Sorted (fun a b => a < b) := by
  have h3 := List.Pairwise.and h1 h2
  exact h3.imp (fun hab => lt_of_le_of_ne hab.1 hab.2)

/-- A row whose resolved name cell satisfies the skip conditions (no
environment tag, or a successful namespace strip leaving fewer than 3
dash-tokens) leaves any accumulated catalog unchanged and raises no error. -/
theorem processLine_skip {f : Option (List Char)} {ni nj : Option Nat}
    {line nameCol : List Char}
    (h1 : jsIndex (jsSplitWs line) nj = some nameCol)
    (h2 : envTagOf nameCol = none ∨
      ∃ v, doNsStrip (f <|> jsIndex (jsSplitWs line) ni) (stripEnv nameCol)
          = .ok v ∧ (splitOnChar '-' v).length < 3) :
    ∀ m : Catalog, processLine f ni nj m line = .ok m := by
  intro m
  have hrow : rowResolution f ni nj line = .ok none := by
    simp only [rowResolution, h1]
    rcases h2 with henv | ⟨v, hv, hlen⟩
    · simp [resolveCell, henv]
    · cases henv : envTagOf nameCol with
      | none => simp [resolveCell, henv]
      | some env =>
        simp only [resolveCell, henv, hv]
        rw [if_neg (by omega)]
  rw [processLine, hrow]

/-! ## The claims -/

/-- C1 (amended): an input whose header row is missing the `NAME` column
(and, when no fixed namespace was supplied, also missing `NAMESPACE`) makes
the whole parse fail — by throwing a `TypeError` when the undefined name cell
is dereferenced, the code's manifestation of the spec's
`MalformedTableError` — provided at least one data line is present; no
catalog is returned. -/
theorem claim1_thm (s : String) (fixedNs : Option String)
    (header : List Char) (rest : List (List Char))
    (hsplit : splitOnChar '\n' (jsTrim s.toList) = header :: rest)
    (hname : (jsSplitWs header).findIdx? (fun t => t == "NAME".toList) = none)
    (_hns : fixedNs = none →
      (jsSplitWs header).findIdx? (fun t => t == "NAMESPACE".toList) = none)
    (hdata : rest ≠ []) :
    getServicesMap s fixedNs = .error .typeError := by
  rw [getServicesMap, hsplit]
  simp only [processLines, hname]
  cases rest with
  | nil => exact absurd rfl hdata
  | cons r rs => rfl

/-- C1 counterexample: the header-only input `"FOO"` is missing both the
`NAME` and the `NAMESPACE` column and no fixed namespace is supplied, yet the
parse does not fail — it returns the empty catalog. -/
theorem claim1_cex :
    (jsSplitWs "FOO".toList).findIdx? (fun t => t == "NAME".toList) = none ∧
    (jsSplitWs "FOO".toList).findIdx? (fun t => t == "NAMESPACE".toList) = none ∧
    getServicesMap "FOO" none = .ok [] :=
  ⟨rfl, rfl, rfl⟩

theorem claim1_wit :
    splitOnChar '\n' (jsTrim "FOO\nbar".toList) = "FOO".toList :: ["bar".toList] ∧
    getServicesMap "FOO\nbar" none = .error .typeError :=
  ⟨rfl, claim1_thm "FOO\nbar" none "FOO".toList ["bar".toList] rfl rfl
    (fun _ => rfl) (by decide)⟩

/-- C2 (amended): a data line whose whitespace-token count does not cover the
located `NAME` column index is not skipped: when the loop reaches it, the
name cell is `undefined` and the whole parse fails with a `TypeError`. -/
theorem claim2_thm (fixedNs : Option (List Char)) (nsIdx nameIdx : Option Nat)
    (m : Catalog) (line : List Char)
    (h : jsIndex (jsSplitWs line) nameIdx = none) :
    processLine fixedNs nsIdx nameIdx m line = .error .typeError := by
  simp only [processLine, rowResolution, h]

/-- C2 counterexample: with the valid header `NAMESPACE NAME` (which locates
`NAME` at index 1) the one-token data line `"x"` is not skipped — the whole
parse fails with a `TypeError` and no catalog is produced. -/
theorem claim2_cex :
    (jsSplitWs "NAMESPACE NAME".toList).findIdx?
        (fun t => t == "NAME".toList) = some 1 ∧
    (jsSplitWs "x".toList).length = 1 ∧
    getServicesMap "NAMESPACE NAME\nx" none = .error .typeError :=
  ⟨rfl, rfl, rfl⟩

theorem claim2_wit :
    jsIndex (jsSplitWs "x".toList) (some 1) = none ∧
    processLine none (some 0) (some 1) [] "x".toList = .error .typeError :=
  ⟨rfl, claim2_thm none (some 0) (some 1) [] "x".toList rfl⟩

/-- Per-row totality of the resolver on regex-literal namespaces. -/
theorem resolveCell_total (nsCol : Option (List Char)) (nameCol : List Char)
    (h : Option.all regexLiteralStr nsCol = true) :
    ∃ r, resolveCell nsCol nameCol = .ok r := by
  have hstrip : ∃ v, doNsStrip nsCol (stripEnv nameCol) = .ok v := by
    cases nsCol with
    | none => exact ⟨_, rfl⟩
    | some w =>
      by_cases hw : w = []
      · exact ⟨_, by rw [doNsStrip, if_pos hw]⟩
      · refine ⟨stripLeadOnce w (stripEnv nameCol), ?_⟩
        rw [doNsStrip, if_neg hw]
        exact replaceNsRegex_literal w _ (by simpa [Option.all] using h)
  obtain ⟨v, hv⟩ := hstrip
  cases henv : envTagOf nameCol with
  | none => exact ⟨none, by simp [resolveCell, henv]⟩
  | some env =>
    simp only [resolveCell, henv, hv]
    split
    · exact ⟨_, rfl⟩
    · exact ⟨none, rfl⟩

/-- C3 (amended): the resolver is total over every sequence of parsed rows —
it never fails or raises, and malformed or ambiguous rows are filtered out
rather than causing an error — provided every row's resolved namespace cell
consists of regex-literal characters (no regular-expression
metacharacters).  (For other namespaces the interpolated `new RegExp`
pattern can be syntactically invalid and throw, see `claim3_cex`.) -/
theorem claim3_thm (f : Option (List Char)) (ni nj : Option Nat)
    (lines : List (List Char))
    (h : ∀ line ∈ lines,
      (∃ nameCol, nameCol ≠ [] ∧ jsIndex (jsSplitWs line) nj = some nameCol) ∧
      Option.all regexLiteralStr (f <|> jsIndex (jsSplitWs line) ni) = true) :
    ∀ m : Catalog, ∃ m', processRows f ni nj m lines = .ok m' := by
  revert h
  induction lines with
  | nil => intro _ m; exact ⟨m, rfl⟩
  | cons l rest ih =>
    intro h m
    obtain ⟨⟨nameCol, _, hname⟩, hlit⟩ := h l (List.mem_cons_self l rest)
    obtain ⟨r, hr⟩ :=
      resolveCell_total (f <|> jsIndex (jsSplitWs l) ni) nameCol hlit
    have hrow : rowResolution f ni nj l = .ok r := by
      simp only [rowResolution, hname]
      exact hr
    cases r with
    | none =>
      have hl : processLine f ni nj m l = .ok m := by rw [processLine, hrow]
      rw [processRows, hl]
      exact ih (fun x hx => h x (List.mem_cons_of_mem l hx)) m
    | some t =>
      obtain ⟨sn, env, ref⟩ := t
      have hl : processLine f ni nj m l = .ok (catInsert m sn env ref) := by
        rw [processLine, hrow]
      rw [processRows, hl]
      exact ih (fun x hx => h x (List.mem_cons_of_mem l hx)) (catInsert m sn env ref)

/-- C3 counterexample: the resolver is not total over every namespace
string: for the non-empty name `dev-x-a-b` with namespace cell `"("`, the
interpolated pattern `^(-` is an invalid regular expression and `new RegExp`
throws a `SyntaxError`. -/
theorem claim3_cex :
    "dev-x-a-b".toList ≠ [] ∧
    resolveCell (some "(".toList) "dev-x-a-b".toList
      = .error .regexSyntaxError :=
  ⟨by decide, rfl⟩

theorem claim3_wit :
    ∃ m', processRows none (some 0) (some 1) []
        ["team-a dev-team-a-checkout-7f9c4d-x2k1p".toList] = .ok m' :=
  claim3_thm none (some 0) (some 1)
    ["team-a dev-team-a-checkout-7f9c4d-x2k1p".toList]
    (by
      intro line hl
      rw [List.mem_singleton] at hl
      subst hl
      exact ⟨⟨"dev-team-a-checkout-7f9c4d-x2k1p".toList, by decide, rfl⟩, rfl⟩)
    []

/-- C4 (amended): for every row whose namespace consists of regex-literal
characters, the namespace strip equals the spec's leading-anchor strip
`stripLeadOnce`: it removes `"<namespace>-"` exactly when it occurs at the
very start of the prefix-stripped name, removes it at most once, and leaves
internal occurrences untouched.  (For namespaces containing regex
metacharacters the interpolated pattern is interpreted as regex syntax and
can remove a leading segment that is not literally `"<namespace>-"`, see
`claim4_cex`.) -/
theorem claim4_thm (ns name : List Char) (h : regexLiteralStr ns = true) :
    replaceNsRegex ns name = .ok (stripLeadOnce ns name) :=
  replaceNsRegex_literal ns name h

/-- C4 counterexample: with namespace `"."` the segment `".-"` does not occur
at the start of `x-a-b-c`, yet the strip removes the leading `"x-"` (the
pattern `^.-` treats `.` as the any-character metacharacter). -/
theorem claim4_cex :
    (".-".toList.isPrefixOf "x-a-b-c".toList) = false ∧
    replaceNsRegex ".".toList "x-a-b-c".toList = .ok "a-b-c".toList :=
  ⟨rfl, rfl⟩

theorem claim4_wit :
    regexLiteralStr "team-a".toList = true ∧
    replaceNsRegex "team-a".toList "team-a-checkout-7f9c4d-x2k1p".toList
      = .ok (stripLeadOnce "team-a".toList
          "team-a-checkout-7f9c4d-x2k1p".toList) :=
  ⟨rfl, claim4_thm _ _ rfl⟩

/-- C5 helper: row-by-row, a `NAMESPACE` column whose cells all hold `N` is
interchangeable with a fixed namespace `N` and no `NAMESPACE` column. -/
theorem claim5_rows (N : List Char) (hN : N ≠ [])
    (hNw : ∀ c ∈ N, isWs c = false) :
    ∀ (names : List (List Char)) (m : Catalog),
      (∀ nm ∈ names, nm ≠ [] ∧ ∀ c ∈ nm, isWs c = false) →
      processRows none (some 0) (some 1) m
          (names.map (fun nm => N ++ ' ' :: nm))
        = processRows (some N) none (some 0) m names := by
  intro names
  induction names with
  | nil => intro m _; rfl
  | cons nm rest ih =>
    intro m hall
    obtain ⟨hnm, hnmw⟩ := hall nm (List.mem_cons_self nm rest)
    have hcols : jsSplitWs (N ++ ' ' :: nm) = [N, nm] :=
      jsSplitWs_pair hN hnm hNw hnmw
    have hcol2 : jsSplitWs nm = [nm] := jsSplitWs_single hnm hnmw
    have e1 : rowResolution none (some 0) (some 1) (N ++ ' ' :: nm)
        = resolveCell (some N) nm := by
      simp only [rowResolution, hcols]
      rfl
    have e2 : rowResolution (some N) none (some 0) nm
        = resolveCell (some N) nm := by
      simp only [rowResolution, hcol2]
      rfl
    have hline : processLine none (some 0) (some 1) m (N ++ ' ' :: nm)
        = processLine (some N) none (some 0) m nm := by
      rw [processLine, processLine, e1, e2]
    rw [List.map_cons, processRows, processRows, hline]
    cases hres : processLine (some N) none (some 0) m nm with
    | error e => rfl
    | ok m2 => exact ih m2 (fun x hx => hall x (List.mem_cons_of_mem nm hx))

/-- C5: parsing a table whose `NAMESPACE` column cells all equal `N` (header
`NAMESPACE NAME`) with no fixed namespace yields exactly the same catalog —
including any thrown error — as parsing the same rows under header `NAME`
with fixed namespace `N` supplied. -/
theorem claim5_thm (N : List Char) (names : List (List Char)) (hN : N ≠ [])
    (hNw : ∀ c ∈ N, isWs c = false)
    (hnames : ∀ nm ∈ names, nm ≠ [] ∧ ∀ c ∈ nm, isWs c = false) :
    processLines none
        ("NAMESPACE NAME".toList :: names.map (fun nm => N ++ ' ' :: nm))
      = processLines (some N) ("NAME".toList :: names) := by
  show processRows none (some 0) (some 1) []
      (names.map (fun nm => N ++ ' ' :: nm))
    = processRows (some N) none (some 0) [] names
  exact claim5_rows N hN hNw names [] hnames

theorem claim5_wit :
    (∀ nm ∈ ["dev-team-a-checkout-7f9c4d-x2k1p".toList],
      nm ≠ [] ∧ ∀ c ∈ nm, isWs c = false) ∧
    processLines none ("NAMESPACE NAME".toList ::
        ["dev-team-a-checkout-7f9c4d-x2k1p".toList].map
          (fun nm => "team-a".toList ++ ' ' :: nm))
      = processLines (some "team-a".toList)
          ("NAME".toList :: ["dev-team-a-checkout-7f9c4d-x2k1p".toList]) :=
  ⟨by decide,
   claim5_thm "team-a".toList ["dev-team-a-checkout-7f9c4d-x2k1p".toList]
    (by decide) (by decide) (by decide)⟩

/-- C6 (Scenario A): for header `NAMESPACE NAME` and data line
`team-a dev-team-a-checkout-7f9c4d-x2k1p` with no fixed namespace, the
catalog maps service `"checkout"`, environment `"dev"` to the instance
reference with discriminator id `"7f9c4d-x2k1p"` and namespace `"team-a"`. -/
theorem claim6_thm :
    (getServicesMap "NAMESPACE NAME\nteam-a dev-team-a-checkout-7f9c4d-x2k1p"
        none).map (fun m => catLookup m "checkout" "dev")
      = .ok (some ⟨"7f9c4d-x2k1p", some "team-a"⟩) := by
  rfl

/-- C7: a row whose name lacks all three environment prefixes, or whose name
after the environment and namespace strips splits into fewer than 3
dash-tokens, adds no entry and raises no error, and removing the row from
the line sequence leaves every other row's processing unchanged. -/
theorem claim7_thm (f : Option (List Char)) (ni nj : Option Nat)
    (line nameCol : List Char)
    (h1 : jsIndex (jsSplitWs line) nj = some nameCol)
    (h2 : envTagOf nameCol = none ∨
      ∃ v, doNsStrip (f <|> jsIndex (jsSplitWs line) ni) (stripEnv nameCol)
          = .ok v ∧ (splitOnChar '-' v).length < 3)
    (m : Catalog) :
    processLine f ni nj m line = .ok m ∧
      ∀ pre post, processRows f ni nj m (pre ++ line :: post)
        = processRows f ni nj m (pre ++ post) := by
  refine ⟨processLine_skip h1 h2 m, ?_⟩
  intro pre
  induction pre generalizing m with
  | nil =>
    intro post
    rw [List.nil_append, List.nil_append, processRows, processLine_skip h1 h2 m]
  | cons p pre ih =>
    intro post
    rw [List.cons_append, List.cons_append, processRows, processRows]
    cases hp : processLine f ni nj m p with
    | error e => rfl
    | ok m2 => exact ih m2 post

theorem claim7_wit :
    processLine none none (some 0) [] "dev-foo-ab".toList = .ok [] ∧
    processRows none none (some 0) []
        ["dev-svc-a-b-c".toList, "dev-foo-ab".toList]
      = processRows none none (some 0) [] ["dev-svc-a-b-c".toList] :=
  ⟨(claim7_thm none none (some 0) "dev-foo-ab".toList "dev-foo-ab".toList rfl
      (Or.inr ⟨"foo-ab".toList, rfl, by decide⟩) []).1,
   (claim7_thm none none (some 0) "dev-foo-ab".toList "dev-foo-ab".toList rfl
      (Or.inr ⟨"foo-ab".toList, rfl, by decide⟩) []).2
     ["dev-svc-a-b-c".toList] []⟩

/-- C8: (i) processing the same line twice yields the same catalog as
processing it once (duplicate-row idempotence, last-wins with the identical
value); (ii) a row that resolves to `(serviceName, envTag, ref)` overwrites
any earlier binding — afterwards the lookup for that pair returns exactly
`ref`; (iii) every catalog the parser returns has unique service keys and,
per service, unique environment keys, so each `(service, environment)` pair
maps to at most one instance reference. -/
theorem claim8_thm :
    (∀ (f : Option (List Char)) (ni nj : Option Nat) (m : Catalog)
        (line : List Char),
      Except.bind (processLine f ni nj m line)
          (fun m2 => processLine f ni nj m2 line)
        = processLine f ni nj m line) ∧
    (∀ (f : Option (List Char)) (ni nj : Option Nat) (m : Catalog)
        (line : List Char) (sn env : String) (ref : ServiceRef),
      rowResolution f ni nj line = .ok (some (sn, env, ref)) →
        processLine f ni nj m line = .ok (catInsert m sn env ref) ∧
        catLookup (catInsert m sn env ref) sn env = some ref) ∧
    (∀ (s : String) (fixedNs : Option String) (m : Catalog),
      getServicesMap s fixedNs = .ok m →
        (m.map Prod.fst).Nodup ∧ ∀ p ∈ m, ((p.2).map Prod.fst).Nodup) := by
  refine ⟨?_, ?_, ?_⟩
  · intro f ni nj m line
    cases hr : rowResolution f ni nj line with
    | error e => simp [processLine, hr, Except.bind]
    | ok o =>
      cases o with
      | none => simp [processLine, hr, Except.bind]
      | some t =>
        obtain ⟨sn, env, ref⟩ := t
        simp [processLine, hr, Except.bind, catInsert_idem]
  · intro f ni nj m line sn env ref h
    exact ⟨by simp [processLine, h], catLookup_catInsert m sn env ref⟩
  · intro s fixedNs m h
    exact getServicesMap_inv h

theorem claim8_wit :
    (Except.bind (processLine none (some 0) (some 1) []
          "team-a dev-team-a-checkout-7f9c4d-x2k1p".toList)
        (fun m2 => processLine none (some 0) (some 1) m2
          "team-a dev-team-a-checkout-7f9c4d-x2k1p".toList)
      = processLine none (some 0) (some 1) []
          "team-a dev-team-a-checkout-7f9c4d-x2k1p".toList) ∧
    (processLine none (some 0) (some 1) []
          "team-a dev-team-a-checkout-7f9c4d-x2k1p".toList
        = .ok (catInsert [] "checkout" "dev"
            ⟨"7f9c4d-x2k1p", some "team-a"⟩) ∧
      catLookup (catInsert [] "checkout" "dev" ⟨"7f9c4d-x2k1p", some "team-a"⟩)
          "checkout" "dev" = some ⟨"7f9c4d-x2k1p", some "team-a"⟩) ∧
    ((([("checkout", [("dev",
            (⟨"7f9c4d-x2k1p", some "team-a"⟩ : ServiceRef))])] :
          Catalog).map Prod.fst).Nodup ∧
      ∀ p ∈ ([("checkout", [("dev",
            (⟨"7f9c4d-x2k1p", some "team-a"⟩ : ServiceRef))])] : Catalog),
        ((p.2).map Prod.fst).Nodup) :=
  ⟨claim8_thm.1 none (some 0) (some 1) [] _,
   claim8_thm.2.1 none (some 0) (some 1) [] _ "checkout" "dev" _ rfl,
   claim8_thm.2.2 "NAMESPACE NAME\nteam-a dev-team-a-checkout-7f9c4d-x2k1p"
     none _ rfl⟩

/-- C9: for every catalog the parser returns, the service-name listing is
strictly ascending in lexicographic order — ascending with no duplicates. -/
theorem claim9_thm (s : String) (fixedNs : Option String) (m : Catalog)
    (h : getServicesMap s fixedNs = .ok m) :
    (listServiceNames m).Sorted (fun a b => a < b) := by
  have hinv := getServicesMap_inv h
  have hsorted : (listServiceNames m).Sorted (fun a b => a ≤ b) :=
    List.sorted_insertionSort _ _
  have hnodup : (listServiceNames m).Nodup :=
    ((List.perm_insertionSort (fun a b => a ≤ b) (m.map Prod.fst)).nodup_iff).mpr
      hinv.1
  exact sorted_lt_of_le_nodup hsorted hnodup

theorem claim9_wit :
    (listServiceNames
        [("checkout", [("dev", (⟨"9999-zzz", some "team-a"⟩ : ServiceRef))]),
         ("billing-svc", [("qa", (⟨"aa-bb", some "team-b"⟩ : ServiceRef))])]).Sorted
      (fun a b => a < b) :=
  claim9_thm
    "NAMESPACE NAME\nteam-a dev-team-a-checkout-7f9c4d-x2k1p\nteam-a dev-team-a-checkout-9999-zzz\nteam-b qa-team-b-billing-svc-aa-bb"
    none _ rfl

/-- C10: for every fixed-namespace argument, an input whose trimmed text
contains no newline — which covers the empty input, whitespace-only input,
and a lone header line with no data lines — yields the empty catalog with no
error. -/
theorem claim10_thm (s : String) (fixedNs : Option String)
    (h : '\n' ∉ jsTrim s.toList) :
    getServicesMap s fixedNs = .ok [] := by
  rw [getServicesMap, splitOnChar_single h, processLines]
  rfl

theorem claim10_wit :
    ('\n' ∉ jsTrim " \n ".toList) ∧ getServicesMap " \n " (some "x") = .ok [] :=
  ⟨by decide, claim10_thm " \n " (some "x") (by decide)⟩

end K8s
